import Mathlib

/-!
Verification of the chunking and retrieval pipeline of the
ecommerce-support RAG microservice.

Source files embedded here:
 - `src/rag-service/src/ingest.py`, function `chunk_text`
 - `src/rag-service/src/retriever.py`, function `search`

Strings are modelled as `List Char`.  Python `str.strip()` is modelled by
`pyStrip` (both-ends whitespace trim), `text.split("\n\n")` by `splitSep`
(left-to-right non-overlapping split on a double line-break), and Python's
`round(x, 4)` (round-half-to-even) by `pyRound4` over `ℚ`.  The embedding
of `search` abstracts the external collaborators (embedding provider and
vector index): the index's answer is passed in as a list of
(document, metadata-source, distance) triples, exactly the data the code
consumes.
-/

/-- Python whitespace characters recognised by `str.strip()` (space, tab,
newline, vertical tab, form feed, carriage return, the file/group/record/unit
separators, next line and no-break space — the Latin-1 part of `str.isspace`;
documents here are plain text, wider Unicode space classes are not modelled). -/
def pyIsSpace (c : Char) : Bool :=
  c == ' ' || c == '\t' || c == '\n' || c == '\r' ||
    c == Char.ofNat 11 || c == Char.ofNat 12 ||
    c == Char.ofNat 28 || c == Char.ofNat 29 || c == Char.ofNat 30 ||
    c == Char.ofNat 31 || c == Char.ofNat 133 || c == Char.ofNat 160

/-- Left strip: drop leading whitespace (`str.lstrip()`). -/
def lstrip (s : List Char) : List Char := s.dropWhile pyIsSpace

/-- Right strip: drop trailing whitespace (`str.rstrip()`). -/
def rstrip (s : List Char) : List Char := (s.reverse.dropWhile pyIsSpace).reverse

/-- Python `str.strip()`: drop whitespace at both ends. -/
def pyStrip (s : List Char) : List Char := rstrip (lstrip s)

/-- `text.split("\n\n")`: split on non-overlapping occurrences of a double
line-break, scanning left to right, keeping empty pieces (as Python does). -/
def splitSep : List Char → List (List Char)
  | [] => [[]]
  | [c] => [[c]]
  | c :: d :: rest =>
    if c = '\n' ∧ d = '\n' then
      [] :: splitSep rest
    else
      match splitSep (d :: rest) with
      | [] => [[c]]
      | s :: ss => (c :: s) :: ss

/-- `ingest.py` line 76:
`paragraphs = [p.strip() for p in text.split("\n\n") if p.strip()]`. -/
def paragraphs (text : List Char) : List (List Char) :=
  ((splitSep text).map pyStrip).filter (fun p => !p.isEmpty)

/-- The paragraph separator `"\n\n"` re-inserted between merged paragraphs. -/
def sepNN : List Char := ['\n', '\n']

/-- One iteration of the `for paragraph in paragraphs` loop of `chunk_text`
(`ingest.py` lines 81-94), acting on the state (chunks so far, current chunk). -/
def chunkStep (chunk_size overlap : Nat) (st : List (List Char) × List Char)
    (p : List Char) : List (List Char) × List Char :=
  if st.2 ≠ [] ∧ chunk_size < st.2.length + p.length + 2 then
    if 0 < overlap ∧ overlap < st.2.length then
      (st.1 ++ [pyStrip st.2], st.2.drop (st.2.length - overlap) ++ sepNN ++ p)
    else
      (st.1 ++ [pyStrip st.2], p)
  else
    if st.2 ≠ [] then (st.1, st.2 ++ sepNN ++ p)
    else (st.1, p)

/-- `chunk_text(text, chunk_size, overlap)` from `ingest.py` lines 67-100:
split into stripped non-empty paragraphs, merge them greedily into chunks of
at most `chunk_size` characters (a chunk is closed when adding the next
paragraph would overflow), seeding the next chunk with the last `overlap`
characters of the closed one, and append the final non-empty accumulator. -/
def chunk_text (text : List Char) (chunk_size overlap : Nat) : List (List Char) :=
  let st := (paragraphs text).foldl (chunkStep chunk_size overlap) ([], [])
  if pyStrip st.2 ≠ [] then st.1 ++ [pyStrip st.2] else st.1

/-- Paragraphs joined with the `"\n\n"` separator, as the accumulator
`current_chunk` of `chunk_text` builds them. -/
def joinSep : List (List Char) → List Char
  | [] => []
  | [p] => p
  | p :: q :: rest => p ++ sepNN ++ joinSep (q :: rest)

/-- One (document, metadata, distance) triple of the vector index's answer to
`collection.query` (`retriever.py` lines 36-40): the document text, the
optional `"source"` metadata entry, and the reported cosine distance. -/
structure IndexEntry where
  doc : List Char
  meta_source : Option (List Char)
  distance : ℚ
deriving DecidableEq

/-- `models.py` `ChunkResult`: chunk text, source document name, similarity
score. -/
structure ChunkResult where
  text : List Char
  source : List Char
  score : ℚ
deriving DecidableEq

/-- The `"unknown"` default used for a missing `"source"` metadata entry
(`retriever.py` line 58). -/
def unknownSource : List Char := ['u', 'n', 'k', 'n', 'o', 'w', 'n']

/-- Python's `round` to an integer: round half to even. -/
def roundHalfEven (x : ℚ) : ℤ :=
  if x - ⌊x⌋ < 1 / 2 then ⌊x⌋
  else if 1 / 2 < x - ⌊x⌋ then ⌊x⌋ + 1
  else if ⌊x⌋ % 2 = 0 then ⌊x⌋ else ⌊x⌋ + 1

/-- Python's `round(x, 4)`: round to 4 decimal places, half to even. -/
def pyRound4 (x : ℚ) : ℚ := (roundHalfEven (x * 10000) : ℚ) / 10000

/-- Build one `ChunkResult` from one index triple (`retriever.py` lines
48-60): `similarity = round(1.0 - (distance / 2.0), 4)`, and
`metadata.get("source", "unknown")` as provenance. -/
def toResult (e : IndexEntry) : ChunkResult :=
  { text := e.doc
    source := e.meta_source.getD unknownSource
    score := pyRound4 (1 - e.distance / 2) }

/-- `search(query, top_k)` from `retriever.py` lines 18-63, as a function of
the data the code branches on: the collection size (`collection.count()`),
`top_k`, and the list of triples the index returned.  The query string only
reaches the external embedding provider, so it does not appear here. -/
def search (count : Nat) (top_k : Nat) (resp : List IndexEntry) :
    List ChunkResult :=
  if count = 0 then []
  else if resp = [] then []
  else resp.map toResult

/-- `n_results=min(top_k, collection.count())` requested from the index
(`retriever.py` line 38). -/
def n_results (top_k count : Nat) : Nat := min top_k count

/-- Modelled from the spec: "compute `similarity = 1 - distance/2`, rounded
to 4 decimal places" (§4.3 step 4).  Stated separately from `toResult` so the
code's score computation can be compared with the spec's formula. -/
def scoreSpec (d : ℚ) : ℚ := pyRound4 (1 - d / 2)

/-- A string with no leading whitespace. -/
def noLeadSpace (s : List Char) : Prop :=
  ∀ c, s.head? = some c → pyIsSpace c = false

/-- A string with no trailing whitespace. -/
def noTrailSpace (s : List Char) : Prop :=
  ∀ c, s.getLast? = some c → pyIsSpace c = false

/-- A cleaned paragraph: non-empty and already stripped at both ends. -/
def cleanPara (p : List Char) : Prop :=
  p ≠ [] ∧ noLeadSpace p ∧ noTrailSpace p

/-- The overlap-continuity relation between two consecutive chunks: when
`overlap > 0`, any separator-free string that is simultaneously a suffix of
the earlier chunk and a prefix of the later one has length at most
`overlap`. -/
def pairShare (ov : Nat) (c₁ c₂ : List Char) : Prop :=
  0 < ov → ∀ t : List Char,
    t <:+ c₁ → t <+: c₂ → ¬ (sepNN <:+: t) → t.length ≤ ov

/-- The relation between a group of consecutive paragraphs and the chunk
built from it: the group is non-empty, its separator-joined text is a suffix
of the chunk (an overlap seed may precede it), and the chunk either respects
the `chunk_size + overlap + 2` bound or ends with a paragraph longer than
`chunk_size`. -/
def groupRel (cs ov : Nat) (g : List (List Char)) (c : List Char) : Prop :=
  g ≠ [] ∧ joinSep g <:+ c ∧
    (c.length ≤ cs + ov + 2 ∨ ∃ p ∈ g, cs < p.length ∧ p <:+ c)

/-- Invariant of the paragraph-merging loop of `chunk_text`.  `ps` is the
list of paragraphs processed so far and `st = (chunks, current_chunk)` the
loop state.  The closed chunks partition the processed paragraphs into
consecutive non-empty groups (`gs`), each chunk containing its group joined
with the paragraph separator as a suffix (an overlap seed may precede it);
the accumulator carries the final group `gcur` behind a seed of at most
`overlap + 2` characters. -/
structure ChunkInv (cs ov : Nat) (ps : List (List Char))
    (st : List (List Char) × List Char) : Prop where
  clean_chunks : ∀ c ∈ st.1, cleanPara c
  groups : ∃ gs gcur,
    List.Forall₂ (groupRel cs ov) gs st.1 ∧
    gs.flatten ++ gcur = ps ∧
    ((st.2 = [] ∧ gcur = [] ∧ st.1 = []) ∨
     (gcur ≠ [] ∧ ∃ pre, st.2 = pre ++ joinSep gcur ∧ pre.length ≤ ov + 2 ∧
        (2 ≤ gcur.length → st.2.length ≤ cs)))
  pairs : List.Chain' (pairShare ov) st.1
  link : ∀ hne : st.1 ≠ [], 0 < ov → ∀ t : List Char,
    t <:+ st.1.getLast hne → t <+: lstrip st.2 → ¬ (sepNN <:+: t) →
    t.length ≤ ov

/-! ### Toolkit: stripping lemmas -/

theorem dropWhile_head_not {α : Type} (q : α → Bool) (l : List α) (c : α)
    (h : (l.dropWhile q).head? = some c) : q c = false := by
  induction l with
  | nil => simp [List.dropWhile] at h
  | cons a t ih =>
    by_cases ha : q a
    · rw [List.dropWhile_cons_of_pos ha] at h
      exact ih h
    · rw [List.dropWhile_cons_of_neg ha] at h
      simp at h
      rw [← h]
      simpa using ha

theorem lstrip_noLead (s : List Char) : noLeadSpace (lstrip s) := by
  intro c hc
  exact dropWhile_head_not pyIsSpace s c hc

theorem lstrip_suf (s : List Char) : lstrip s <:+ s :=
  List.dropWhile_suffix _

theorem lstrip_of_noLead (s : List Char) (h : noLeadSpace s) : lstrip s = s := by
  cases s with
  | nil => rfl
  | cons c t =>
    have : pyIsSpace c = false := h c rfl
    simp [lstrip, List.dropWhile_cons, this]

theorem lstrip_eq_nil_iff (s : List Char) :
    lstrip s = [] ↔ ∀ c ∈ s, pyIsSpace c = true := by
  simpa [lstrip] using List.dropWhile_eq_nil_iff (p := pyIsSpace) (l := s)

theorem lstrip_append_pos (a b : List Char) (h : lstrip a ≠ []) :
    lstrip (a ++ b) = lstrip a ++ b := by
  induction a with
  | nil => exact absurd rfl h
  | cons c t ih =>
    by_cases hc : pyIsSpace c
    · have h' : lstrip t ≠ [] := by
        intro hnil
        apply h
        simp [lstrip, List.dropWhile_cons, hc]
        simpa [lstrip] using hnil
      simp only [List.cons_append, lstrip, List.dropWhile_cons, hc, if_true]
      exact ih h'
    · simp [lstrip, List.dropWhile_cons, hc]

theorem lstrip_append_nil (a b : List Char) (h : lstrip a = []) :
    lstrip (a ++ b) = lstrip b := by
  induction a with
  | nil => rfl
  | cons c t ih =>
    by_cases hc : pyIsSpace c
    · have h' : lstrip t = [] := by
        simpa [lstrip, List.dropWhile_cons, hc] using h
      simp only [List.cons_append, lstrip, List.dropWhile_cons, hc, if_true]
      exact ih h'
    · simp [lstrip, List.dropWhile_cons, hc] at h

theorem rstrip_eq_reverse (s : List Char) :
    rstrip s = (s.reverse.dropWhile pyIsSpace).reverse := rfl

theorem rstrip_noTrail (s : List Char) : noTrailSpace (rstrip s) := by
  intro c hc
  rw [rstrip_eq_reverse, List.getLast?_reverse] at hc
  exact dropWhile_head_not pyIsSpace s.reverse c hc

theorem rstrip_of_noTrail (s : List Char) (h : noTrailSpace s) : rstrip s = s := by
  have : noLeadSpace s.reverse := by
    intro c hc
    rw [List.head?_reverse] at hc
    exact h c hc
  have h2 : s.reverse.dropWhile pyIsSpace = s.reverse := by
    have := lstrip_of_noLead s.reverse this
    simpa [lstrip] using this
  rw [rstrip_eq_reverse, h2, List.reverse_reverse]

theorem rstrip_pre (s : List Char) : rstrip s <+: s := by
  obtain ⟨u, hu⟩ := List.dropWhile_suffix (l := s.reverse) (p := pyIsSpace)
  refine ⟨u.reverse, ?_⟩
  rw [rstrip_eq_reverse]
  calc (s.reverse.dropWhile pyIsSpace).reverse ++ u.reverse
      = (u ++ s.reverse.dropWhile pyIsSpace).reverse := by rw [List.reverse_append]
    _ = s.reverse.reverse := by rw [hu]
    _ = s := List.reverse_reverse s

theorem head?_of_pre {α : Type} {a b : List α} (h : a <+: b) (ha : a ≠ []) :
    b.head? = a.head? := by
  obtain ⟨t, rfl⟩ := h
  exact List.head?_append_of_ne_nil a ha

theorem getLast?_of_suf {α : Type} {t s : List α} (h : t <:+ s) (ht : t ≠ []) :
    s.getLast? = t.getLast? := by
  obtain ⟨u, rfl⟩ := h
  exact List.getLast?_append_of_ne_nil u ht

theorem pyStrip_noLead (s : List Char) : noLeadSpace (pyStrip s) := by
  intro c hc
  have hne : pyStrip s ≠ [] := by
    intro hnil
    rw [hnil] at hc
    simp at hc
  have := head?_of_pre (rstrip_pre (lstrip s)) hne
  rw [pyStrip] at hc
  rw [pyStrip] at hne
  rw [hc] at this
  exact lstrip_noLead s c this

theorem pyStrip_noTrail (s : List Char) : noTrailSpace (pyStrip s) :=
  rstrip_noTrail (lstrip s)

theorem pyStrip_of_clean (s : List Char) (h1 : noLeadSpace s) (h2 : noTrailSpace s) :
    pyStrip s = s := by
  rw [pyStrip, lstrip_of_noLead s h1, rstrip_of_noTrail s h2]

theorem pyStrip_idem (s : List Char) : pyStrip (pyStrip s) = pyStrip s :=
  pyStrip_of_clean _ (pyStrip_noLead s) (pyStrip_noTrail s)

theorem pyStrip_length_le (s : List Char) : (pyStrip s).length ≤ s.length :=
  le_trans ((rstrip_pre (lstrip s)).length_le) ((lstrip_suf s).length_le)

theorem lstrip_ne_nil_of_getLast (s : List Char) (c : Char)
    (hc : s.getLast? = some c) (hsp : pyIsSpace c = false) : lstrip s ≠ [] := by
  intro hnil
  rw [lstrip_eq_nil_iff] at hnil
  have hmem : c ∈ s := by
    cases s with
    | nil => simp at hc
    | cons a t => exact List.mem_of_mem_getLast? hc
  rw [hnil c hmem] at hsp
  exact Bool.noConfusion hsp

theorem getLast?_lstrip (s : List Char) (h : lstrip s ≠ []) :
    (lstrip s).getLast? = s.getLast? :=
  (getLast?_of_suf (lstrip_suf s) h).symm

theorem pyStrip_eq_lstrip (s : List Char) (c : Char)
    (hc : s.getLast? = some c) (hsp : pyIsSpace c = false) :
    pyStrip s = lstrip s := by
  have hne := lstrip_ne_nil_of_getLast s c hc hsp
  apply rstrip_of_noTrail
  intro d hd
  rw [getLast?_lstrip s hne, hc] at hd
  cases hd
  exact hsp

/-! ### Toolkit: joined paragraph groups -/

theorem joinSep_cons (p : List Char) (g : List (List Char)) (hg : g ≠ []) :
    joinSep (p :: g) = p ++ sepNN ++ joinSep g := by
  cases g with
  | nil => exact absurd rfl hg
  | cons q r => rfl

theorem joinSep_snoc (g : List (List Char)) (p : List Char) (hg : g ≠ []) :
    joinSep (g ++ [p]) = joinSep g ++ sepNN ++ p := by
  induction g with
  | nil => exact absurd rfl hg
  | cons q r ih =>
    cases r with
    | nil => rfl
    | cons q2 r2 =>
      have h1 : (q :: q2 :: r2) ++ [p] = q :: ((q2 :: r2) ++ [p]) := by simp
      rw [h1, joinSep_cons q ((q2 :: r2) ++ [p]) (by simp), ih (by simp),
        joinSep_cons q (q2 :: r2) (by simp)]
      simp [List.append_assoc]

theorem joinSep_ne_nil (g : List (List Char)) (hg : g ≠ [])
    (hc : ∀ p ∈ g, cleanPara p) : joinSep g ≠ [] := by
  cases g with
  | nil => exact absurd rfl hg
  | cons p r =>
    cases r with
    | nil => exact (hc p (by simp)).1
    | cons q r2 =>
      rw [joinSep_cons p (q :: r2) (by simp)]
      simp [sepNN]

theorem joinSep_head? (g : List (List Char)) (p : List Char) (r : List (List Char))
    (hg : g = p :: r) (hp : p ≠ []) : (joinSep g).head? = p.head? := by
  subst hg
  cases r with
  | nil => rfl
  | cons q r2 =>
    rw [joinSep_cons p (q :: r2) (by simp)]
    rw [List.append_assoc]
    exact List.head?_append_of_ne_nil p hp

theorem joinSep_noLead (g : List (List Char)) (hc : ∀ p ∈ g, cleanPara p) :
    noLeadSpace (joinSep g) := by
  cases g with
  | nil => intro c hc2; simp [joinSep] at hc2
  | cons p r =>
    intro c hhead
    rw [joinSep_head? (p :: r) p r rfl (hc p (by simp)).1] at hhead
    exact (hc p (by simp)).2.1 c hhead

theorem joinSep_noTrail (g : List (List Char)) (hc : ∀ p ∈ g, cleanPara p) :
    noTrailSpace (joinSep g) := by
  induction g with
  | nil => intro c h; simp [joinSep] at h
  | cons p r ih =>
    cases r with
    | nil => exact fun c h => (hc p (by simp)).2.2 c h
    | cons q r2 =>
      intro c h
      have hsub : ∀ x ∈ q :: r2, cleanPara x := fun x hx => hc x (by simp [hx])
      have hne : joinSep (q :: r2) ≠ [] := joinSep_ne_nil _ (by simp) hsub
      rw [joinSep_cons p (q :: r2) (by simp), List.append_assoc,
        List.getLast?_append_of_ne_nil _ (by simp [hne]),
        List.getLast?_append_of_ne_nil _ hne] at h
      exact ih hsub c h

theorem mem_infix_joinSep (g : List (List Char)) (p : List Char) (hp : p ∈ g) :
    p <:+: joinSep g := by
  induction g with
  | nil => simp at hp
  | cons q r ih =>
    rcases List.mem_cons.mp hp with h | h
    · subst h
      cases r with
      | nil => exact List.infix_rfl
      | cons q2 r2 =>
        rw [joinSep_cons p (q2 :: r2) (by simp)]
        exact ⟨[], sepNN ++ joinSep (q2 :: r2), by simp⟩
    · have := ih h
      cases r with
      | nil => simp at h
      | cons q2 r2 =>
        rw [joinSep_cons q (q2 :: r2) (by simp)]
        obtain ⟨u, v, huv⟩ := this
        exact ⟨q ++ sepNN ++ u, v, by rw [← huv]; simp [List.append_assoc]⟩

theorem joinSep_single (p : List Char) : joinSep [p] = p := rfl

/-! ### Toolkit: prefixes, suffixes -/

theorem nil_pre {α : Type} (l : List α) : [] <+: l := ⟨l, rfl⟩

theorem nil_suf {α : Type} (l : List α) : [] <:+ l := ⟨l, List.append_nil l⟩

theorem suf_append_left {α : Type} {t b : List α} (a : List α) (h : t <:+ b) :
    t <:+ a ++ b := by
  obtain ⟨u, rfl⟩ := h
  exact ⟨a ++ u, by simp⟩

theorem suf_snoc_self {α : Type} (a : List α) (t : List α) : t <:+ a ++ t :=
  ⟨a, rfl⟩

theorem pre_append_cases {α : Type} (t a b : List α) (h : t <+: a ++ b) :
    t <+: a ∨ ∃ u, u <+: b ∧ t = a ++ u := by
  induction a generalizing t with
  | nil => exact Or.inr ⟨t, by simpa using h, by simp⟩
  | cons c a' ih =>
    cases t with
    | nil => exact Or.inl (nil_pre _)
    | cons c' t' =>
      rw [List.cons_append, List.cons_prefix_cons] at h
      obtain ⟨rfl, h2⟩ := h
      rcases ih t' h2 with h3 | ⟨u, hu, rfl⟩
      · exact Or.inl (List.cons_prefix_cons.mpr ⟨rfl, h3⟩)
      · exact Or.inr ⟨u, hu, by simp⟩

theorem suf_of_suf_append {α : Type} (t a b : List α) (h : t <:+ a ++ b)
    (hlen : t.length ≤ b.length) : t <:+ b := by
  obtain ⟨u, hu⟩ := h
  have h2 : (u ++ t).length = (a ++ b).length := by rw [hu]
  simp at h2
  have h3 : a.length ≤ u.length := by omega
  have hb : b = List.drop a.length u ++ t := by
    have := congrArg (List.drop a.length) hu
    rw [List.drop_append_eq_append_drop, List.drop_append_eq_append_drop] at this
    rw [Nat.sub_eq_zero_of_le h3, List.drop_zero, List.drop_length] at this
    simpa using this.symm
  exact ⟨List.drop a.length u, hb.symm⟩

/-! ### Toolkit: Forall₂, paragraphs -/

theorem forall₂_snoc {α β : Type} {R : α → β → Prop} {as : List α} {bs : List β}
    {a : α} {b : β} (h : List.Forall₂ R as bs) (hab : R a b) :
    List.Forall₂ R (as ++ [a]) (bs ++ [b]) := by
  induction h with
  | nil => simpa using List.Forall₂.cons hab List.Forall₂.nil
  | cons hR _ ih => exact List.Forall₂.cons hR ih

theorem forall₂_mem_right {α β : Type} {R : α → β → Prop} {as : List α}
    {bs : List β} (h : List.Forall₂ R as bs) {b : β} (hb : b ∈ bs) :
    ∃ a ∈ as, R a b := by
  induction h with
  | nil => simp at hb
  | cons hR _ ih =>
    rcases List.mem_cons.mp hb with rfl | hb2
    · exact ⟨_, by simp, hR⟩
    · obtain ⟨a, ha, hr⟩ := ih hb2
      exact ⟨a, by simp [ha], hr⟩

theorem forall₂_imp_all {α β : Type} {R S : α → β → Prop} {as : List α}
    {bs : List β} (h : List.Forall₂ R as bs) (himp : ∀ a b, R a b → S a b) :
    List.Forall₂ S as bs := by
  induction h with
  | nil => exact List.Forall₂.nil
  | cons hR _ ih => exact List.Forall₂.cons (himp _ _ hR) ih

theorem paragraphs_clean (text : List Char) :
    ∀ p ∈ paragraphs text, cleanPara p := by
  intro p hp
  rw [paragraphs, List.mem_filter] at hp
  obtain ⟨hmap, hne⟩ := hp
  obtain ⟨q, _, rfl⟩ := List.mem_map.mp hmap
  refine ⟨?_, pyStrip_noLead q, pyStrip_noTrail q⟩
  simpa using hne

theorem ends_nonspace (s : List Char) (hne : s ≠ []) (h : noTrailSpace s) :
    ∃ c, s.getLast? = some c ∧ pyIsSpace c = false := by
  refine ⟨s.getLast hne, List.getLast?_eq_getLast s hne, ?_⟩
  exact h _ (List.getLast?_eq_getLast s hne)

theorem clean_append_noTrail (a p : List Char) (hp : cleanPara p) :
    noTrailSpace (a ++ p) := by
  intro c hc
  rw [List.getLast?_append_of_ne_nil a hp.1] at hc
  exact hp.2.2 c hc

/-! ### Toolkit: separator-free shared substrings and accumulator structure -/

theorem pre_of_sepNN (u : List Char) (h : u <+: sepNN) :
    u = [] ∨ u = ['\n'] ∨ u = sepNN := by
  cases u with
  | nil => exact Or.inl rfl
  | cons c u2 =>
    rw [show sepNN = '\n' :: ['\n'] from rfl, List.cons_prefix_cons] at h
    obtain ⟨rfl, h2⟩ := h
    cases u2 with
    | nil => exact Or.inr (Or.inl rfl)
    | cons c2 u3 =>
      rw [List.cons_prefix_cons] at h2
      obtain ⟨rfl, h3⟩ := h2
      have : u3 = [] := List.eq_nil_of_prefix_nil h3
      subst this
      exact Or.inr (Or.inr rfl)

theorem shared_bound (c a b t : List Char) (hc : noTrailSpace c) (ht : t <:+ c)
    (hp : t <+: a ++ sepNN ++ b) (hnot : ¬ (sepNN <:+: t)) : t <+: a := by
  rw [List.append_assoc] at hp
  rcases pre_append_cases t a (sepNN ++ b) hp with h | ⟨u, hu, rfl⟩
  · exact h
  · rcases pre_append_cases u sepNN b hu with h2 | ⟨v, _, rfl⟩
    · rcases pre_of_sepNN u h2 with rfl | rfl | rfl
      · simpa using List.prefix_rfl
      · exfalso
        have htne : a ++ ['\n'] ≠ [] := by simp
        have hlast : (a ++ ['\n']).getLast? = some '\n' :=
          List.getLast?_append_of_ne_nil a (by simp)
        have := hc '\n' (by rw [getLast?_of_suf ht htne]; exact hlast)
        simp [pyIsSpace] at this
      · exact absurd ⟨a, [], by simp⟩ hnot
    · exact absurd ⟨a, v, by simp⟩ hnot

theorem accum_getLast (pre : List Char) (g : List (List Char)) (hg : g ≠ [])
    (hclean : ∀ p ∈ g, cleanPara p) :
    (pre ++ joinSep g).getLast? = (joinSep g).getLast? :=
  List.getLast?_append_of_ne_nil pre (joinSep_ne_nil g hg hclean)

theorem accum_ends_nonspace (pre : List Char) (g : List (List Char))
    (hg : g ≠ []) (hclean : ∀ p ∈ g, cleanPara p) :
    ∃ c, (pre ++ joinSep g).getLast? = some c ∧ pyIsSpace c = false := by
  obtain ⟨c, hc, hsp⟩ := ends_nonspace (joinSep g)
    (joinSep_ne_nil g hg hclean) (joinSep_noTrail g hclean)
  exact ⟨c, by rw [accum_getLast pre g hg hclean]; exact hc, hsp⟩

theorem accum_lstrip_suf (pre : List Char) (g : List (List Char)) (hg : g ≠ [])
    (hclean : ∀ p ∈ g, cleanPara p) :
    joinSep g <:+ lstrip (pre ++ joinSep g) := by
  by_cases h : lstrip pre = []
  · rw [lstrip_append_nil pre _ h,
      lstrip_of_noLead (joinSep g) (joinSep_noLead g hclean)]
  · rw [lstrip_append_pos pre _ h]
    exact suf_snoc_self _ _

theorem accum_lstrip_ne (pre : List Char) (g : List (List Char)) (hg : g ≠ [])
    (hclean : ∀ p ∈ g, cleanPara p) : lstrip (pre ++ joinSep g) ≠ [] := by
  intro hnil
  have := accum_lstrip_suf pre g hg hclean
  rw [hnil] at this
  have := List.eq_nil_of_suffix_nil this
  exact joinSep_ne_nil g hg hclean this

theorem accum_strip_eq_lstrip (pre : List Char) (g : List (List Char))
    (hg : g ≠ []) (hclean : ∀ p ∈ g, cleanPara p) :
    pyStrip (pre ++ joinSep g) = lstrip (pre ++ joinSep g) := by
  obtain ⟨c, hc, hsp⟩ := accum_ends_nonspace pre g hg hclean
  exact pyStrip_eq_lstrip _ c hc hsp

theorem accum_strip_clean (pre : List Char) (g : List (List Char))
    (hg : g ≠ []) (hclean : ∀ p ∈ g, cleanPara p) :
    cleanPara (pyStrip (pre ++ joinSep g)) := by
  refine ⟨?_, pyStrip_noLead _, pyStrip_noTrail _⟩
  rw [accum_strip_eq_lstrip pre g hg hclean]
  exact accum_lstrip_ne pre g hg hclean

theorem accum_strip_suf (pre : List Char) (g : List (List Char))
    (hg : g ≠ []) (hclean : ∀ p ∈ g, cleanPara p) :
    joinSep g <:+ pyStrip (pre ++ joinSep g) := by
  rw [accum_strip_eq_lstrip pre g hg hclean]
  exact accum_lstrip_suf pre g hg hclean

/-! ### Closing the accumulator into a chunk -/

theorem mem_getLast?_eq {α : Type} (l : List α) (x : α) (hx : x ∈ l.getLast?) :
    ∃ hne : l ≠ [], x = l.getLast hne := by
  cases l with
  | nil => simp at hx
  | cons a t =>
    refine ⟨by simp, ?_⟩
    rw [List.getLast?_eq_getLast (a :: t) (by simp), Option.mem_some_iff] at hx
    exact hx.symm

theorem close_state (cs ov : Nat) (chunks : List (List Char)) (cur : List Char)
    (gs : List (List (List Char))) (gcur : List (List Char)) (pre : List Char)
    (hclean : ∀ c ∈ chunks, cleanPara c)
    (hf : List.Forall₂ (groupRel cs ov) gs chunks)
    (hgne : gcur ≠ [])
    (hgclean : ∀ p ∈ gcur, cleanPara p)
    (hcur : cur = pre ++ joinSep gcur)
    (hpre : pre.length ≤ ov + 2)
    (hbig : 2 ≤ gcur.length → cur.length ≤ cs)
    (hpairs : List.Chain' (pairShare ov) chunks)
    (hlink : ∀ hne : chunks ≠ [], 0 < ov → ∀ t : List Char,
      t <:+ chunks.getLast hne → t <+: lstrip cur → ¬ (sepNN <:+: t) →
      t.length ≤ ov) :
    (∀ c ∈ chunks ++ [pyStrip cur], cleanPara c) ∧
    List.Forall₂ (groupRel cs ov) (gs ++ [gcur]) (chunks ++ [pyStrip cur]) ∧
    List.Chain' (pairShare ov) (chunks ++ [pyStrip cur]) := by
  subst hcur
  have hNclean : cleanPara (pyStrip (pre ++ joinSep gcur)) :=
    accum_strip_clean pre gcur hgne hgclean
  have hNsuf : joinSep gcur <:+ pyStrip (pre ++ joinSep gcur) :=
    accum_strip_suf pre gcur hgne hgclean
  have hNeq : pyStrip (pre ++ joinSep gcur) = lstrip (pre ++ joinSep gcur) :=
    accum_strip_eq_lstrip pre gcur hgne hgclean
  refine ⟨?_, ?_, ?_⟩
  · intro c hc
    rcases List.mem_append.mp hc with h | h
    · exact hclean c h
    · rw [List.mem_singleton.mp h]
      exact hNclean
  · refine forall₂_snoc hf ⟨hgne, hNsuf, ?_⟩
    have hlen : (pyStrip (pre ++ joinSep gcur)).length ≤
        (pre ++ joinSep gcur).length := pyStrip_length_le _
    cases gcur with
    | nil => exact absurd rfl hgne
    | cons q r =>
      cases r with
      | nil =>
        simp only [joinSep_single] at hlen hNsuf ⊢
        rw [List.length_append] at hlen
        by_cases hq : q.length ≤ cs
        · left
          omega
        · right
          exact ⟨q, by simp, by omega, hNsuf⟩
      | cons q2 r2 =>
        left
        have := hbig (by simp)
        omega
  · rw [List.chain'_append]
    refine ⟨hpairs, List.chain'_singleton _, ?_⟩
    intro x hx y hy
    obtain ⟨hne, rfl⟩ := mem_getLast?_eq chunks x hx
    rw [List.head?_cons, Option.mem_some_iff] at hy
    subst hy
    intro hov t hsuf hpfx hnot
    rw [hNeq] at hpfx
    exact hlink hne hov t hsuf hpfx hnot

theorem getLast_snoc {α : Type} (l : List α) (a : α) (hne : l ++ [a] ≠ []) :
    (l ++ [a]).getLast hne = a := by
  have h1 := List.getLast?_eq_getLast (l ++ [a]) hne
  rw [List.getLast?_append_of_ne_nil l (by simp)] at h1
  simpa using h1.symm

theorem chunkInv_step (cs ov : Nat) (ps : List (List Char))
    (chunks : List (List Char)) (cur : List Char) (p : List Char)
    (hinv : ChunkInv cs ov ps (chunks, cur)) (hp : cleanPara p)
    (hps : ∀ q ∈ ps, cleanPara q) :
    ChunkInv cs ov (ps ++ [p]) (chunkStep cs ov (chunks, cur) p) := by
  obtain ⟨hclean, ⟨gs, gcur, hf, hjoin, hdisj⟩, hpairs, hlink⟩ := hinv
  simp only at hclean hf hjoin hdisj hpairs hlink
  have hgclean : gcur ≠ [] → ∀ q ∈ gcur, cleanPara q := by
    intro _ q hq
    exact hps q (by rw [← hjoin]; exact List.mem_append.mpr (Or.inr hq))
  unfold chunkStep
  split_ifs with h1 h2 h3
  · -- close the chunk, seed the next accumulator with the overlap
    obtain ⟨hcne, hsz⟩ := h1
    simp only at hcne hsz h2
    rcases hdisj with ⟨hnil, _, _⟩ | ⟨hgne, pre, hcur, hpre, hbig⟩
    · exact absurd hnil hcne
    have hgc := hgclean hgne
    obtain ⟨hclean2, hf2, hpairs2⟩ := close_state cs ov chunks cur gs gcur pre
      hclean hf hgne hgc hcur hpre hbig hpairs hlink
    have hseedlen : (cur.drop (cur.length - ov)).length = ov := by
      rw [List.length_drop]; omega
    have hseedsuf : cur.drop (cur.length - ov) <:+ cur := List.drop_suffix _ _
    have hseedne : cur.drop (cur.length - ov) ≠ [] := by
      intro h
      rw [h] at hseedlen
      simp at hseedlen
      omega
    obtain ⟨ch, hch, hchsp⟩ := accum_ends_nonspace pre gcur hgne hgc
    rw [← hcur] at hch
    have hseedlast : (cur.drop (cur.length - ov)).getLast? = some ch := by
      rw [← getLast?_of_suf hseedsuf hseedne]
      exact hch
    have hlsne : lstrip (cur.drop (cur.length - ov)) ≠ [] :=
      lstrip_ne_nil_of_getLast _ ch hseedlast hchsp
    have hlsl : (lstrip (cur.drop (cur.length - ov))).length ≤ ov := by
      have := (lstrip_suf (cur.drop (cur.length - ov))).length_le
      omega
    refine ⟨hclean2, ⟨gs ++ [gcur], [p], hf2, ?_, Or.inr ⟨by simp,
      cur.drop (cur.length - ov) ++ sepNN, ?_, ?_, ?_⟩⟩, hpairs2, ?_⟩
    · simp only [List.flatten_append, List.flatten_cons, List.flatten_nil,
        List.append_nil, List.append_assoc]
      rw [← List.append_assoc, hjoin]
    · rw [joinSep_single]
    · simp only [List.length_append, hseedlen, sepNN]
      simp
    · intro h
      simp at h
    · intro hne hov t hsuf hpfx hnot
      simp only at hsuf hpfx
      rw [getLast_snoc chunks (pyStrip cur) hne] at hsuf
      rw [List.append_assoc, lstrip_append_pos _ _ hlsne, ← List.append_assoc]
        at hpfx
      have hta : t <+: lstrip (cur.drop (cur.length - ov)) :=
        shared_bound (pyStrip cur) _ p t (pyStrip_noTrail cur) hsuf hpfx hnot
      exact le_trans hta.length_le hlsl
  · -- close the chunk, start the next accumulator from the paragraph alone
    obtain ⟨hcne, hsz⟩ := h1
    simp only at hcne hsz h2
    rcases hdisj with ⟨hnil, _, _⟩ | ⟨hgne, pre, hcur, hpre, hbig⟩
    · exact absurd hnil hcne
    have hgc := hgclean hgne
    obtain ⟨hclean2, hf2, hpairs2⟩ := close_state cs ov chunks cur gs gcur pre
      hclean hf hgne hgc hcur hpre hbig hpairs hlink
    refine ⟨hclean2, ⟨gs ++ [gcur], [p], hf2, ?_, Or.inr ⟨by simp, [],
      by rw [joinSep_single]; simp, by simp, by intro h; simp at h⟩⟩,
      hpairs2, ?_⟩
    · simp only [List.flatten_append, List.flatten_cons, List.flatten_nil,
        List.append_nil, List.append_assoc]
      rw [← List.append_assoc, hjoin]
    · intro hne hov t hsuf hpfx hnot
      simp only at hsuf hpfx
      rw [getLast_snoc chunks (pyStrip cur) hne] at hsuf
      have hcl2 : cur.length ≤ ov := by
        rcases not_and_or.mp h2 with h | h
        · exact absurd hov h
        · omega
      have ht1 : t.length ≤ (pyStrip cur).length := hsuf.length_le
      have ht2 : (pyStrip cur).length ≤ cur.length := pyStrip_length_le cur
      omega
  · -- append the paragraph to the accumulator
    simp only at h3
    rcases hdisj with ⟨hnil, _, _⟩ | ⟨hgne, pre, hcur, hpre, hbig⟩
    · exact absurd hnil h3
    have hgc := hgclean hgne
    have hsz2 : cur.length + p.length + 2 ≤ cs := by
      rcases not_and_or.mp h1 with h | h
      · exact absurd h3 (by simpa using h)
      · simp only at h
        omega
    refine ⟨hclean, ⟨gs, gcur ++ [p], hf, ?_, Or.inr ⟨by simp, pre, ?_, hpre,
      ?_⟩⟩, hpairs, ?_⟩
    · rw [← List.append_assoc, hjoin]
    · rw [joinSep_snoc gcur p hgne, hcur]
      simp [List.append_assoc]
    · intro _
      simp only [List.length_append, sepNN]
      simp
      omega
    · intro hne hov t hsuf hpfx hnot
      simp only at hsuf hpfx
      have hlcne : lstrip cur ≠ [] := by
        rw [hcur]
        exact accum_lstrip_ne pre gcur hgne hgc
      rw [List.append_assoc, lstrip_append_pos _ _ hlcne, ← List.append_assoc]
        at hpfx
      have hta : t <+: lstrip cur := shared_bound (chunks.getLast hne) _ p t
        (hclean _ (List.getLast_mem hne)).2.2 hsuf hpfx hnot
      exact hlink hne hov t hsuf hta hnot
  · -- first paragraph: the accumulator was empty
    simp only at h3
    rcases hdisj with ⟨hnil, hgnil, hchnil⟩ | ⟨hgne, pre, hcur, _, _⟩
    · subst hgnil
      subst hchnil
      have hgs : gs = [] := List.forall₂_nil_right_iff.mp hf
      subst hgs
      simp only [List.flatten_nil, List.nil_append] at hjoin
      refine ⟨by simp, ⟨[], [p], List.Forall₂.nil, by simp [hjoin],
        Or.inr ⟨by simp, [], by rw [joinSep_single]; simp, by simp,
          by intro h; simp at h⟩⟩, List.chain'_nil, ?_⟩
      intro hne
      simp at hne
    · exfalso
      have hjne : joinSep gcur ≠ [] := joinSep_ne_nil gcur hgne (hgclean hgne)
      have : cur = [] := by simpa using h3
      rw [hcur] at this
      simp at this
      exact hjne this.2

theorem chunkInv_init (cs ov : Nat) : ChunkInv cs ov [] ([], []) :=
  ⟨by simp, ⟨[], [], List.Forall₂.nil, by simp, Or.inl ⟨rfl, rfl, rfl⟩⟩,
    List.chain'_nil, by intro hne; simp at hne⟩

theorem chunkInv_foldl (cs ov : Nat) (ps : List (List Char)) :
    ∀ (done : List (List Char)) (st : List (List Char) × List Char),
    (∀ q ∈ done, cleanPara q) → (∀ q ∈ ps, cleanPara q) →
    ChunkInv cs ov done st →
    ChunkInv cs ov (done ++ ps) (ps.foldl (chunkStep cs ov) st) := by
  induction ps with
  | nil =>
    intro done st _ _ hinv
    simpa using hinv
  | cons p rest ih =>
    intro done st h1 h2 hinv
    obtain ⟨chunks, cur⟩ := st
    rw [List.foldl_cons, show done ++ p :: rest = (done ++ [p]) ++ rest by simp]
    refine ih (done ++ [p]) _ ?_ (fun q hq => h2 q (by simp [hq])) ?_
    · intro q hq
      rcases List.mem_append.mp hq with h | h
      · exact h1 q h
      · rw [List.mem_singleton.mp h]
        exact h2 p (by simp)
    · exact chunkInv_step cs ov done chunks cur p hinv (h2 p (by simp)) h1

theorem chunk_text_eq (text : List Char) (cs ov : Nat) :
    chunk_text text cs ov =
      (if pyStrip ((paragraphs text).foldl (chunkStep cs ov) ([], [])).2 ≠ []
       then ((paragraphs text).foldl (chunkStep cs ov) ([], [])).1 ++
         [pyStrip ((paragraphs text).foldl (chunkStep cs ov) ([], [])).2]
       else ((paragraphs text).foldl (chunkStep cs ov) ([], [])).1) := rfl

/-- Master structure theorem for `chunk_text`: the produced chunks partition
the paragraph list into consecutive non-empty groups in order, each chunk is
clean, each chunk contains its group (joined with the separator) as a
suffix, each chunk respects the size bound unless it ends with an oversized
paragraph, and consecutive chunks satisfy the overlap-continuity relation. -/
theorem chunk_text_master (text : List Char) (cs ov : Nat) :
    ∃ gs : List (List (List Char)),
      gs.flatten = paragraphs text ∧
      List.Forall₂ (groupRel cs ov) gs (chunk_text text cs ov) ∧
      (∀ c ∈ chunk_text text cs ov, cleanPara c) ∧
      List.Chain' (pairShare ov) (chunk_text text cs ov) := by
  have hinv := chunkInv_foldl cs ov (paragraphs text) [] ([], []) (by simp)
    (paragraphs_clean text) (chunkInv_init cs ov)
  rw [List.nil_append] at hinv
  obtain ⟨hclean, ⟨gs, gcur, hf, hjoin, hdisj⟩, hpairs, hlink⟩ := hinv
  rw [chunk_text_eq]
  rcases hdisj with ⟨hnil, hgnil, hchnil⟩ | ⟨hgne, pre, hcur, hpre, hbig⟩
  · subst hgnil
    have hgs : gs = [] := by
      rw [hchnil] at hf
      exact List.forall₂_nil_right_iff.mp hf
    subst hgs
    rw [hnil, hchnil]
    rw [if_neg (by simp [pyStrip, lstrip, rstrip])]
    refine ⟨[], by simpa using hjoin, List.Forall₂.nil, by simp, List.chain'_nil⟩
  · have hgc : ∀ q ∈ gcur, cleanPara q := fun q hq =>
      paragraphs_clean text q (by rw [← hjoin]; exact List.mem_append.mpr (Or.inr hq))
    obtain ⟨hclean2, hf2, hpairs2⟩ := close_state cs ov _ _ gs gcur pre
      hclean hf hgne hgc hcur hpre hbig hpairs hlink
    have hstne : pyStrip ((paragraphs text).foldl (chunkStep cs ov) ([], [])).2 ≠ [] := by
      rw [hcur]
      exact (accum_strip_clean pre gcur hgne hgc).1
    rw [if_pos hstne]
    refine ⟨gs ++ [gcur], ?_, hf2, hclean2, hpairs2⟩
    rw [List.flatten_append]
    simp only [List.flatten_cons, List.flatten_nil, List.append_nil]
    exact hjoin

/-! ### Corollaries of the master theorem -/

theorem inf_of_suf {α : Type} {a c : List α} (h : a <:+ c) : a <:+: c := by
  obtain ⟨u, rfl⟩ := h
  exact ⟨u, [], by simp⟩

theorem forall₂_mem_left {α β : Type} {R : α → β → Prop} {as : List α}
    {bs : List β} (h : List.Forall₂ R as bs) {a : α} (ha : a ∈ as) :
    ∃ b ∈ bs, R a b := by
  induction h with
  | nil => simp at ha
  | cons hR _ ih =>
    rcases List.mem_cons.mp ha with rfl | ha2
    · exact ⟨_, by simp, hR⟩
    · obtain ⟨b, hb, hr⟩ := ih ha2
      exact ⟨b, by simp [hb], hr⟩

theorem chunk_text_covers (text : List Char) (cs ov : Nat) (p : List Char)
    (hp : p ∈ paragraphs text) : ∃ c ∈ chunk_text text cs ov, p <:+: c := by
  obtain ⟨gs, hjoin, hf, _, _⟩ := chunk_text_master text cs ov
  rw [← hjoin] at hp
  obtain ⟨g, hg, hpg⟩ := List.mem_flatten.mp hp
  obtain ⟨c, hc, hrel⟩ := forall₂_mem_left hf hg
  exact ⟨c, hc, (mem_infix_joinSep g p hpg).trans (inf_of_suf hrel.2.1)⟩

/-! ### Claims about the chunker -/

/-- C10: for every input text, `chunk_size` and `overlap`, every string in
the list returned by `chunk_text` is non-empty and has no leading or
trailing whitespace (each chunk equals its own stripped form). -/
theorem C10_chunks_clean (text : List Char) (cs ov : Nat) :
    ∀ c ∈ chunk_text text cs ov, c ≠ [] ∧ pyStrip c = c := by
  intro c hc
  obtain ⟨_, _, _, hclean, _⟩ := chunk_text_master text cs ov
  obtain ⟨hne, hl, ht⟩ := hclean c hc
  exact ⟨hne, pyStrip_of_clean c hl ht⟩

/-- C10 witness: the chunk `"ab"` of `chunk_text "ab" 5 0` is non-empty and
stripped. -/
theorem C10_chunks_clean_witness :
    ['a', 'b'] ≠ ([] : List Char) ∧ pyStrip ['a', 'b'] = ['a', 'b'] :=
  C10_chunks_clean (String.toList "ab") 5 0 ['a', 'b'] (by decide)

/-- C4: every non-empty stripped paragraph of the input appears whole inside
some chunk, and the chunks partition the paragraph sequence into consecutive
non-empty groups in the original left-to-right order (each chunk contains
its group, joined with the paragraph separator, as a suffix) — no paragraph
is dropped or reordered. -/
theorem C4_coverage_order (text : List Char) (cs ov : Nat) :
    (∀ p ∈ paragraphs text, ∃ c ∈ chunk_text text cs ov, p <:+: c) ∧
    (∃ gs : List (List (List Char)), gs.flatten = paragraphs text ∧
      List.Forall₂ (fun g c => g ≠ [] ∧ joinSep g <:+ c) gs
        (chunk_text text cs ov)) := by
  obtain ⟨gs, hjoin, hf, _, _⟩ := chunk_text_master text cs ov
  constructor
  · exact fun p hp => chunk_text_covers text cs ov p hp
  · exact ⟨gs, hjoin, forall₂_imp_all hf (fun g c hr => ⟨hr.1, hr.2.1⟩)⟩

/-- C4 witness: for `chunk_text "ab\n\ncd" 20 0` the paragraph `"ab"` is
contained in a produced chunk. -/
theorem C4_coverage_order_witness :
    ∃ c ∈ chunk_text (String.toList "ab\n\ncd") 20 0, ['a', 'b'] <:+: c :=
  (C4_coverage_order (String.toList "ab\n\ncd") 20 0).1 ['a', 'b'] (by decide)

/-- C1 counterexample: with `chunk_size = 5`, `overlap = 2` and input
`"aaaaa\n\nbbbbb\n\nc"`, `chunk_text` produces the chunk `"aa\n\nbbbbb"` of
length 9 > chunk_size + overlap = 7, and that chunk does not consist of a
single paragraph longer than `chunk_size`, refuting the claimed bound
`len(chunk) ≤ chunk_size + overlap`. -/
theorem C1_size_bound_counterexample :
    ∃ c ∈ chunk_text (String.toList "aaaaa\n\nbbbbb\n\nc") 5 2,
      (¬ ∃ p ∈ paragraphs (String.toList "aaaaa\n\nbbbbb\n\nc"),
          c = p ∧ 5 < p.length) ∧ 5 + 2 < c.length := by decide

/-- C1 (amended): for every input text, `chunk_size` and `overlap`, each
chunk produced by `chunk_text` that does not contain (as a suffix) a
paragraph longer than `chunk_size` has length at most
`chunk_size + overlap + 2` (the `+ 2` accounts for the separator joined
after the overlap seed). -/
theorem C1_size_bound_amended (text : List Char) (cs ov : Nat) :
    ∀ c ∈ chunk_text text cs ov,
      c.length ≤ cs + ov + 2 ∨
      ∃ p ∈ paragraphs text, cs < p.length ∧ p <:+ c := by
  intro c hc
  obtain ⟨gs, hjoin, hf, _, _⟩ := chunk_text_master text cs ov
  obtain ⟨g, hg, hrel⟩ := forall₂_mem_right hf hc
  rcases hrel.2.2 with h | ⟨p, hpg, hlen, hsuf⟩
  · exact Or.inl h
  · exact Or.inr ⟨p, by rw [← hjoin]; exact List.mem_flatten.mpr ⟨g, hg, hpg⟩,
      hlen, hsuf⟩

/-- C1 witness: the size bound holds for the chunk `"ab"` of
`chunk_text "ab" 5 0`. -/
theorem C1_size_bound_witness :
    (['a', 'b'] : List Char).length ≤ 5 + 0 + 2 ∨
    ∃ p ∈ paragraphs (String.toList "ab"), 5 < p.length ∧ p <:+ ['a', 'b'] :=
  C1_size_bound_amended (String.toList "ab") 5 0 ['a', 'b'] (by decide)

/-- C8 counterexample: with `chunk_size = 3`, `overlap = 6` and input
`"xxxxxxx\n\naaaa\n\nb"`, the paragraph `"aaaa"` (longer than `chunk_size`)
appears whole in TWO chunks — the chunk it was placed in and the following
chunk, whose overlap seed copies it entirely — refuting "exactly one
chunk". -/
theorem C8_oversized_counterexample :
    ∃ p ∈ paragraphs (String.toList "xxxxxxx\n\naaaa\n\nb"), 3 < p.length ∧
      ((chunk_text (String.toList "xxxxxxx\n\naaaa\n\nb") 3 6).countP
        (fun c => decide (p <:+: c))) ≠ 1 := by decide

/-- C8 (amended): a paragraph whose stripped length exceeds `chunk_size` is
never split: it appears whole within at least one chunk of the output (when
`overlap` is at least its length it can additionally appear whole inside the
overlap seed of the following chunk). -/
theorem C8_oversized_amended (text : List Char) (cs ov : Nat) (p : List Char)
    (hp : p ∈ paragraphs text) (hlong : cs < p.length) :
    ∃ c ∈ chunk_text text cs ov, p <:+: c :=
  chunk_text_covers text cs ov p hp

/-- C8 witness: the oversized paragraph `"aaaa"` of
`chunk_text "xxxxxxx\n\naaaa\n\nb" 3 6` appears whole in some chunk. -/
theorem C8_oversized_witness :
    ∃ c ∈ chunk_text (String.toList "xxxxxxx\n\naaaa\n\nb") 3 6,
      ['a', 'a', 'a', 'a'] <:+: c :=
  C8_oversized_amended (String.toList "xxxxxxx\n\naaaa\n\nb") 3 6
    ['a', 'a', 'a', 'a'] (by decide) (by decide)

/-- C9: for `overlap > 0` and any two consecutive chunks `i` and `i+1`
produced by `chunk_text`, the end of chunk `i` and the start of chunk `i+1`
share a common substring of length at most `overlap`; moreover every
separator-free string shared between the end of chunk `i` and the start of
chunk `i+1` has length at most `overlap`. -/
theorem C9_overlap_share (text : List Char) (cs ov : Nat) (hov : 0 < ov)
    (i : Nat) (h : i + 1 < (chunk_text text cs ov).length) :
    (∃ t : List Char,
        t <:+ (chunk_text text cs ov).get ⟨i, by omega⟩ ∧
        t <+: (chunk_text text cs ov).get ⟨i + 1, h⟩ ∧ t.length ≤ ov) ∧
    (∀ t : List Char,
        t <:+ (chunk_text text cs ov).get ⟨i, by omega⟩ →
        t <+: (chunk_text text cs ov).get ⟨i + 1, h⟩ →
        ¬ (sepNN <:+: t) → t.length ≤ ov) := by
  obtain ⟨_, _, _, _, hchain⟩ := chunk_text_master text cs ov
  have hp := List.chain'_iff_get.mp hchain i (by omega)
  exact ⟨⟨[], nil_suf _, nil_pre _, by simp⟩,
    fun t h1 h2 h3 => hp hov t h1 h2 h3⟩

/-- C9 witness: for `chunk_text "aaaaa\n\nbbbbb" 5 2 = ["aaaaa",
"aa\n\nbbbbb"]` the overlap-continuity property holds between chunks 0 and
1. -/
theorem C9_overlap_share_witness :
    0 < 2 ∧ 0 + 1 < (chunk_text (String.toList "aaaaa\n\nbbbbb") 5 2).length ∧
    ((∃ t : List Char,
        t <:+ (chunk_text (String.toList "aaaaa\n\nbbbbb") 5 2).get
          ⟨0, by decide⟩ ∧
        t <+: (chunk_text (String.toList "aaaaa\n\nbbbbb") 5 2).get
          ⟨0 + 1, by decide⟩ ∧ t.length ≤ 2) ∧
    (∀ t : List Char,
        t <:+ (chunk_text (String.toList "aaaaa\n\nbbbbb") 5 2).get
          ⟨0, by decide⟩ →
        t <+: (chunk_text (String.toList "aaaaa\n\nbbbbb") 5 2).get
          ⟨0 + 1, by decide⟩ →
        ¬ (sepNN <:+: t) → t.length ≤ 2)) :=
  ⟨by decide, by decide,
    C9_overlap_share (String.toList "aaaaa\n\nbbbbb") 5 2 (by decide) 0
      (by decide)⟩

/-! ### Toolkit: round-half-to-even -/

theorem roundHalfEven_int_bounds (x : ℚ) :
    ⌊x⌋ ≤ roundHalfEven x ∧ roundHalfEven x ≤ ⌊x⌋ + 1 := by
  unfold roundHalfEven
  split_ifs <;> omega

theorem roundHalfEven_mono (x y : ℚ) (h : x ≤ y) :
    roundHalfEven x ≤ roundHalfEven y := by
  rcases lt_or_eq_of_le (Int.floor_le_floor h) with hf | hf
  · have h1 := roundHalfEven_int_bounds x
    have h2 := roundHalfEven_int_bounds y
    omega
  · unfold roundHalfEven
    rw [hf]
    split_ifs <;> first
      | omega
      | (exfalso; linarith)

theorem roundHalfEven_of_ge_half (x : ℚ) (n : ℤ) (hfl : ⌊x⌋ = n)
    (hge : (n : ℚ) + 1 / 2 ≤ x) (hodd : n % 2 = 1) :
    roundHalfEven x = n + 1 := by
  unfold roundHalfEven
  rw [hfl]
  split_ifs with h1 h2 h3
  · exfalso; linarith
  · rfl
  · omega
  · rfl

theorem roundHalfEven_intCast (n : ℤ) : roundHalfEven (n : ℚ) = n := by
  unfold roundHalfEven
  rw [Int.floor_intCast]
  split_ifs with h1 h2 h3 <;> first | rfl | (exfalso; simp at h1 h2 <;> linarith)

theorem roundHalfEven_lt_of_lt_half (x : ℚ) (n : ℤ) (hle : x < (n : ℚ) + 1 / 2) :
    roundHalfEven x ≤ n := by
  have hb := roundHalfEven_int_bounds x
  by_cases hfl : ⌊x⌋ ≤ n - 1
  · omega
  · have hfl2 : n ≤ ⌊x⌋ := by omega
    have hxn : (n : ℚ) ≤ x := le_trans (by exact_mod_cast hfl2) (Int.floor_le x)
    have hfln : ⌊x⌋ = n := by
      have := Int.le_floor.mpr hxn
      have h2 : (⌊x⌋ : ℚ) ≤ x := Int.floor_le x
      have h3 : ⌊x⌋ ≤ n := by
        by_contra hcon
        push_neg at hcon
        have : ((n + 1 : ℤ) : ℚ) ≤ (⌊x⌋ : ℚ) := by exact_mod_cast hcon
        push_cast at this
        linarith
      omega
    unfold roundHalfEven
    rw [hfln]
    have hfrac : x - (n : ℚ) < 1 / 2 := by linarith
    rw [if_pos hfrac]

theorem pyRound4_mono (x y : ℚ) (h : x ≤ y) : pyRound4 x ≤ pyRound4 y := by
  unfold pyRound4
  have h1 := roundHalfEven_mono (x * 10000) (y * 10000) (by linarith)
  have h2 : ((roundHalfEven (x * 10000) : ℤ) : ℚ) ≤
      ((roundHalfEven (y * 10000) : ℤ) : ℚ) := by exact_mod_cast h1
  linarith

/-- Central arithmetic fact about the score computation: for a cosine
distance in [0, 2], the similarity score lies in [0, 1], and it equals 1
exactly when the distance is at most 1/10000. -/
theorem score_core (d : ℚ) (h0 : 0 ≤ d) (h2 : d ≤ 2) :
    0 ≤ pyRound4 (1 - d / 2) ∧ pyRound4 (1 - d / 2) ≤ 1 ∧
      (pyRound4 (1 - d / 2) = 1 ↔ d ≤ 1 / 10000) := by
  have key : pyRound4 (1 - d / 2) =
      (roundHalfEven (10000 - 5000 * d) : ℚ) / 10000 := by
    have harith : (1 - d / 2) * 10000 = 10000 - 5000 * d := by ring
    unfold pyRound4
    rw [harith]
  have hx0 : (0 : ℚ) ≤ 10000 - 5000 * d := by linarith
  have hx1 : (10000 : ℚ) - 5000 * d ≤ 10000 := by linarith
  have hb := roundHalfEven_int_bounds (10000 - 5000 * d)
  have hfl0 : 0 ≤ ⌊(10000 : ℚ) - 5000 * d⌋ := Int.le_floor.mpr (by exact_mod_cast hx0)
  have hr0 : 0 ≤ roundHalfEven (10000 - 5000 * d) := by omega
  have hrle : roundHalfEven (10000 - 5000 * d) ≤ 10000 :=
    roundHalfEven_lt_of_lt_half _ 10000 (by push_cast; linarith)
  refine ⟨?_, ?_, ?_⟩
  · rw [key]
    have : (0 : ℚ) ≤ (roundHalfEven (10000 - 5000 * d) : ℚ) := by exact_mod_cast hr0
    linarith
  · rw [key]
    have : ((roundHalfEven (10000 - 5000 * d) : ℤ) : ℚ) ≤ 10000 := by
      exact_mod_cast hrle
    linarith
  · rw [key]
    constructor
    · intro h1
      have h1' : roundHalfEven (10000 - 5000 * d) = 10000 := by
        have hq : ((roundHalfEven (10000 - 5000 * d) : ℤ) : ℚ) = 10000 := by
          field_simp at h1
          exact_mod_cast h1
        exact_mod_cast hq
      by_contra hcon
      push_neg at hcon
      have hxlt : (10000 : ℚ) - 5000 * d < (9999 : ℤ) + 1 / 2 := by
        push_cast
        linarith
      have := roundHalfEven_lt_of_lt_half _ 9999 hxlt
      omega
    · intro hd
      have h1' : roundHalfEven (10000 - 5000 * d) = 10000 := by
        by_cases hcase : (10000 : ℚ) - 5000 * d = 10000
        · rw [hcase]
          have := roundHalfEven_intCast 10000
          simpa using this
        · have hlt : (10000 : ℚ) - 5000 * d < 10000 := lt_of_le_of_ne hx1 hcase
          have hfl : ⌊(10000 : ℚ) - 5000 * d⌋ = 9999 := by
            rw [Int.floor_eq_iff]
            push_cast
            constructor <;> linarith
          exact roundHalfEven_of_ge_half _ 9999 hfl (by push_cast; linarith)
            (by norm_num)
      rw [h1']
      norm_num

theorem pyRound4_of_mul_eq_int (x : ℚ) (n : ℤ) (h : x * 10000 = (n : ℚ)) :
    pyRound4 x = (n : ℚ) / 10000 := by
  unfold pyRound4
  rw [h, roundHalfEven_intCast]

/-! ### Claims about the retriever -/

/-- C6: for every `top_k` (and whatever the index would have answered), if
the collection is empty (`collection.count() = 0`) then `search` returns the
empty list; in the embedding `search` is a total function, so this path
raises nothing. -/
theorem C6_empty_collection (top_k : Nat) (resp : List IndexEntry) :
    search 0 top_k resp = [] := rfl

/-- C7: on a non-empty collection the code requests
`n_results = min(top_k, count)` nearest neighbours, and when the index
honours that request (returns exactly `n_results` triples) `search` returns
exactly `n_results` results — never more than `top_k` and never more than
the number of stored chunks. -/
theorem C7_result_count (count top_k : Nat) (resp : List IndexEntry)
    (hc : count ≠ 0) (hlen : resp.length = n_results top_k count) :
    (search count top_k resp).length = n_results top_k count ∧
    n_results top_k count ≤ top_k ∧ n_results top_k count ≤ count := by
  refine ⟨?_, Nat.min_le_left _ _, Nat.min_le_right _ _⟩
  unfold search
  rw [if_neg hc]
  by_cases hr : resp = []
  · subst hr
    rw [if_pos rfl]
    simpa using hlen
  · rw [if_neg hr, List.length_map]
    exact hlen

/-- C7 witness: with one stored chunk and `top_k = 3`, exactly
`min(3, 1) = 1` result is returned. -/
theorem C7_result_count_witness :
    (1 : Nat) ≠ 0 ∧
    ([⟨[], none, 0⟩] : List IndexEntry).length = n_results 3 1 ∧
    ((search 1 3 [⟨[], none, 0⟩]).length = n_results 3 1 ∧
      n_results 3 1 ≤ 3 ∧ n_results 3 1 ≤ 1) :=
  ⟨by decide, by decide, C7_result_count 1 3 [⟨[], none, 0⟩] (by decide)
    (by decide)⟩

/-- C3: the score of every returned `ChunkResult` is exactly the spec's
formula `round(1 - distance/2, 4)` applied to the distance the index
reported for it (in the order reported), and in particular distance 0 gives
score 1, distance 1 gives score 1/2 and distance 2 gives score 0. -/
theorem C3_score_formula (count top_k : Nat) (resp : List IndexEntry)
    (hc : count ≠ 0) :
    (search count top_k resp).map (fun r => r.score) =
      resp.map (fun e => scoreSpec e.distance) ∧
    scoreSpec 0 = 1 ∧ scoreSpec 1 = 1 / 2 ∧ scoreSpec 2 = 0 := by
  refine ⟨?_, ?_, ?_, ?_⟩
  · unfold search
    rw [if_neg hc]
    by_cases hr : resp = []
    · subst hr
      simp
    · rw [if_neg hr, List.map_map]
      rfl
  · have h := pyRound4_of_mul_eq_int (1 - 0 / 2) 10000 (by norm_num)
    unfold scoreSpec
    rw [h]
    norm_num
  · have h := pyRound4_of_mul_eq_int (1 - 1 / 2) 5000 (by norm_num)
    unfold scoreSpec
    rw [h]
    norm_num
  · have h := pyRound4_of_mul_eq_int (1 - 2 / 2) 0 (by norm_num)
    unfold scoreSpec
    rw [h]
    norm_num

/-- C3 witness: the formula evaluated through `search` on the distances
0, 1 and 2. -/
theorem C3_score_formula_witness :
    (1 : Nat) ≠ 0 ∧
    ((search 1 3 [⟨[], none, 0⟩, ⟨[], none, 1⟩, ⟨[], none, 2⟩]).map
        (fun r => r.score) =
      ([⟨[], none, 0⟩, ⟨[], none, 1⟩, ⟨[], none, 2⟩] : List IndexEntry).map
        (fun e => scoreSpec e.distance) ∧
      scoreSpec 0 = 1 ∧ scoreSpec 1 = 1 / 2 ∧ scoreSpec 2 = 0) :=
  ⟨by decide, C3_score_formula 1 3 [⟨[], none, 0⟩, ⟨[], none, 1⟩,
    ⟨[], none, 2⟩] (by decide)⟩

/-- C2 counterexample: the distance 1/20000 is a legal cosine distance in
[0, 2] and is not 0, yet `search` rounds its similarity
`1 - (1/20000)/2 = 0.999975` to exactly 1.0 — "score 1.0 only when the
distance is 0" fails on the code. -/
theorem C2_score_one_counterexample :
    (0 : ℚ) ≤ 1 / 20000 ∧ (1 / 20000 : ℚ) ≤ 2 ∧ (1 / 20000 : ℚ) ≠ 0 ∧
    (search 1 1 [⟨[], none, 1 / 20000⟩]).map (fun r => r.score) = [1] := by
  refine ⟨by norm_num, by norm_num, by norm_num, ?_⟩
  have h := (score_core (1 / 20000) (by norm_num) (by norm_num)).2.2.mpr
    (by norm_num)
  unfold search
  rw [if_neg (by norm_num), if_neg (by simp)]
  simp only [List.map_cons, List.map_nil]
  show [pyRound4 (1 - (1 / 20000 : ℚ) / 2)] = [1]
  rw [h]

/-- C2 (amended): provided the index reports distances in [0, 2] (its
documented cosine-distance range), every `ChunkResult` returned by `search`
has `0 ≤ score ≤ 1`; the score equals 1.0 exactly when the corresponding
distance is at most 1/10000 (so in particular when it is 0, but also for any
smaller positive distance). -/
theorem C2_score_range_amended (count top_k : Nat) (resp : List IndexEntry)
    (hd : ∀ e ∈ resp, 0 ≤ e.distance ∧ e.distance ≤ 2) :
    (∀ r ∈ search count top_k resp, 0 ≤ r.score ∧ r.score ≤ 1) ∧
    (∀ e ∈ resp, ((toResult e).score = 1 ↔ e.distance ≤ 1 / 10000)) := by
  constructor
  · intro r hr
    unfold search at hr
    split_ifs at hr with h1 h2
    · simp at hr
    · simp at hr
    · obtain ⟨e, he, rfl⟩ := List.mem_map.mp hr
      obtain ⟨he0, he2⟩ := hd e he
      have hs := score_core e.distance he0 he2
      exact ⟨hs.1, hs.2.1⟩
  · intro e he
    obtain ⟨he0, he2⟩ := hd e he
    exact (score_core e.distance he0 he2).2.2

/-- C2 witness: the amended range property at the single distance 1. -/
theorem C2_score_range_amended_witness :
    (∀ e ∈ ([⟨[], none, 1⟩] : List IndexEntry),
      0 ≤ e.distance ∧ e.distance ≤ 2) ∧
    ((∀ r ∈ search 1 1 [⟨[], none, 1⟩], 0 ≤ r.score ∧ r.score ≤ 1) ∧
      (∀ e ∈ ([⟨[], none, 1⟩] : List IndexEntry),
        ((toResult e).score = 1 ↔ e.distance ≤ 1 / 10000))) :=
  ⟨by
    intro e he
    rw [List.mem_singleton] at he
    subst he
    exact ⟨by norm_num, by norm_num⟩,
  C2_score_range_amended 1 1 [⟨[], none, 1⟩] (by
    intro e he
    rw [List.mem_singleton] at he
    subst he
    exact ⟨by norm_num, by norm_num⟩)⟩

/-- C5: when the index's reported distances are sorted in ascending order,
the `ChunkResult` list returned by `search` is in non-increasing order of
score, and `search` keeps the index's order (the i-th result is built from
the i-th triple; no re-sorting). -/
theorem C5_ranking_order (count top_k : Nat) (resp : List IndexEntry)
    (hc : count ≠ 0)
    (hsorted : List.Chain' (fun a b => a.distance ≤ b.distance) resp) :
    List.Chain' (fun a b => b.score ≤ a.score) (search count top_k resp) ∧
    (search count top_k resp).map (fun r => r.text) =
      resp.map (fun e => e.doc) := by
  unfold search
  rw [if_neg hc]
  by_cases hr : resp = []
  · subst hr
    rw [if_pos rfl]
    exact ⟨List.chain'_nil, by simp⟩
  · rw [if_neg hr]
    constructor
    · rw [List.chain'_map]
      refine List.Chain'.imp ?_ hsorted
      intro a b hab
      show pyRound4 (1 - b.distance / 2) ≤ pyRound4 (1 - a.distance / 2)
      exact pyRound4_mono _ _ (by linarith)
    · rw [List.map_map]
      rfl

/-- C5 witness: two entries with ascending distances 0 and 1 give results
with non-increasing scores in the same order. -/
theorem C5_ranking_order_witness :
    (1 : Nat) ≠ 0 ∧
    List.Chain' (fun a b => a.distance ≤ b.distance)
      ([⟨['x'], none, 0⟩, ⟨['y'], none, 1⟩] : List IndexEntry) ∧
    (List.Chain' (fun a b => b.score ≤ a.score)
      (search 1 2 [⟨['x'], none, 0⟩, ⟨['y'], none, 1⟩]) ∧
    (search 1 2 [⟨['x'], none, 0⟩, ⟨['y'], none, 1⟩]).map (fun r => r.text) =
      ([⟨['x'], none, 0⟩, ⟨['y'], none, 1⟩] : List IndexEntry).map
        (fun e => e.doc)) :=
  ⟨by norm_num,
    by
      refine List.chain'_cons.mpr ⟨by norm_num, ?_⟩
      exact List.chain'_singleton _,
    C5_ranking_order 1 2 [⟨['x'], none, 0⟩, ⟨['y'], none, 1⟩] (by norm_num)
      (by
        refine List.chain'_cons.mpr ⟨by norm_num, ?_⟩
        exact List.chain'_singleton _)⟩
